import Mathlib

/-!
Verification development for the task-execution core of tiup-cluster
(src/pkg/task/task.go): the shared execution Context with its guarded
sub-stores, the Serial and Parallel composite tasks, and the begin/finish
event publication performed at each dispatch point.

Modelling conventions (shallow embedding):
* Go byte slices are lists of naturals; the opaque executor.TiOpsExecutor
  interface value is a natural number whose Go zero value (nil) is 0; the
  opaque *repository.VersionManifest pointer is a natural number.
* Go maps are association lists with overwrite-on-insert and
  first-match lookup, matching last-writer-wins map semantics.
* The mutexes guard individual map accesses only; each guarded operation
  is therefore a single atomic step in the model and the locks themselves
  need no representation.
* A Go panic is modelled by an Option result being none.
* Errors are opaque; an error value is a natural tag, and error-or-nil is
  an Option.
-/

namespace TiupTask

/-- Opaque error value (Go error); a non-nil error is some tag. -/
abbrev Err := Nat

/-- Opaque per-host remote-execution handle (executor.TiOpsExecutor).
The Go zero value (a nil interface) is modelled as 0. -/
abbrev TiOpsExecutor := Nat

/-- Go byte slice. -/
abbrev Bytes := List Nat

/-- Opaque version-metadata object (*repository.VersionManifest). -/
abbrev VersionManifest := Nat

/-- Lookup in a Go-map modelled as an association list. -/
def mapLookup (k : String) : List (String × α) → Option α
  | [] => none
  | (k1, v) :: rest => if k1 = k then some v else mapLookup k rest

/-- Insert into a Go-map modelled as an association list: overwrite the
existing binding if present, append otherwise (last writer wins). -/
def mapInsert (k : String) (v : α) : List (String × α) → List (String × α)
  | [] => [(k, v)]
  | (k1, v1) :: rest =>
      if k1 = k then (k, v) :: rest else (k1, v1) :: mapInsert k v rest

/-- The shared execution Context of task.go: the executor registry, the
per-host stdout/stderr caches (three maps guarded by one RWMutex in the
source), and the manifest cache (guarded by its own RWMutex). The two
credential path fields are immutable strings and are omitted: no claim
and no operation of this core touches them. -/
structure Context where
  executors : List (String × TiOpsExecutor)
  stdouts : List (String × Bytes)
  stderrs : List (String × Bytes)
  manifests : List (String × VersionManifest)
deriving DecidableEq, Repr

/-- NewContext: all stores start empty. -/
def NewContext : Context := ⟨[], [], [], []⟩

/-- Context.Get (hard lookup): returns the registered executor, and
panics when the host has none; the panic is modelled by none. -/
def Context.Get (ctx : Context) (host : String) : Option TiOpsExecutor :=
  mapLookup host ctx.executors

/-- Context.GetExecutor (soft lookup): returns the executor and a found
flag; a missing host yields the Go zero value (nil handle, modelled 0)
and false. -/
def Context.GetExecutor (ctx : Context) (host : String) : TiOpsExecutor × Bool :=
  match mapLookup host ctx.executors with
  | some e => (e, true)
  | none => (0, false)

/-- Context.SetExecutor: register the executor for a host. -/
def Context.SetExecutor (ctx : Context) (host : String) (e : TiOpsExecutor) : Context :=
  { ctx with executors := mapInsert host e ctx.executors }

/-- Context.GetOutputs, as written in the source: the variable named
stdout is read from the stderrs store and the variable named stderr from
the stdouts store (cross-assigned); missing entries give the zero value
(nil slice, modelled []) and the flag is the conjunction of both found
flags. -/
def Context.GetOutputs (ctx : Context) (host : String) : Bytes × Bytes × Bool :=
  let stdout := mapLookup host ctx.stderrs
  let stderr := mapLookup host ctx.stdouts
  (stdout.getD [], stderr.getD [], stdout.isSome && stderr.isSome)

/-- Context.SetOutputs, as written in the source: the stdout argument is
stored into the stderrs map and the stderr argument into the stdouts map
(cross-assigned). -/
def Context.SetOutputs (ctx : Context) (host : String) (stdout stderr : Bytes) : Context :=
  { ctx with
      stderrs := mapInsert host stdout ctx.stderrs
      stdouts := mapInsert host stderr ctx.stdouts }

/-- Context.GetManifest: soft lookup in the manifest cache. -/
def Context.GetManifest (ctx : Context) (comp : String) : Option VersionManifest :=
  mapLookup comp ctx.manifests

/-- Context.SetManifest: store a manifest for a component. -/
def Context.SetManifest (ctx : Context) (comp : String) (m : VersionManifest) : Context :=
  { ctx with manifests := mapInsert comp m ctx.manifests }

/-- A single guarded Context mutation a leaf task may perform during its
Execute or Rollback (the set-operations of the Context interface). -/
inductive CtxOp where
  | setExecutor (host : String) (e : TiOpsExecutor)
  | setOutputs (host : String) (stdout stderr : Bytes)
  | setManifest (comp : String) (m : VersionManifest)
deriving DecidableEq, Repr

/-- Apply one Context mutation. -/
def CtxOp.apply : CtxOp → Context → Context
  | .setExecutor host e, ctx => ctx.SetExecutor host e
  | .setOutputs host o er, ctx => ctx.SetOutputs host o er
  | .setManifest comp m, ctx => ctx.SetManifest comp m

/-- Apply a list of Context mutations in order. -/
def applyOps (ops : List CtxOp) (ctx : Context) : Context :=
  ops.foldl (fun c op => op.apply c) ctx

/-- The Task tree of task.go. Serial and Parallel are the two composite
forms of the source. The open set of leaf implementations (supplied by
collaborators outside this file) is modelled by the leaf constructor: a
description (its String method), the value isDisplayTask returns on it
(true models the StepDisplay / ParallelStepDisplay wrappers, which are
declared outside task.go and behave as opaque children here), the fixed
error its Execute and Rollback return, and the Context mutations its
Execute and Rollback perform. -/
inductive Task where
  | leaf (desc : String) (display : Bool) (execErr rbErr : Option Err)
      (execOps rbOps : List CtxOp)
  | Serial (hideDetailDisplay : Bool) (inner : List Task)
  | Parallel (hideDetailDisplay : Bool) (inner : List Task)

/-- Separator used by strings.Join in the String methods. -/
def newlineSep : String := "\n"

mutual
/-- Task.String: a leaf reports its own description; Serial and Parallel
join their children's descriptions with newlines (strings.Join). -/
def Task.descr : Task → String
  | .leaf d _ _ _ _ _ => d
  | .Serial _ inner => String.intercalate newlineSep (descrList inner)
  | .Parallel _ inner => String.intercalate newlineSep (descrList inner)

/-- Descriptions of a list of tasks, in order. -/
def descrList : List Task → List String
  | [] => []
  | t :: ts => Task.descr t :: descrList ts
end

/-- isDisplayTask of task.go: true exactly on the structural variants
(Serial, Parallel, StepDisplay, ParallelStepDisplay). The two display
wrappers are modelled as leaves whose display field is true. -/
def isDisplayTask : Task → Bool
  | .leaf _ display _ _ _ _ => display
  | .Serial _ _ => true
  | .Parallel _ _ => true

/-- A published progress event: PublishTaskBegin carries the dispatched
task (represented by its description), PublishTaskFinish additionally
carries the error its Execute returned. -/
inductive Event where
  | taskBegin (desc : String)
  | taskFinish (desc : String) (err : Option Err)
deriving DecidableEq, Repr

/-- Log line printed by Serial.Execute before dispatching a leaf child. -/
def serialLogLine (t : Task) : String := "+ [ Serial ] - " ++ t.descr

/-- Log line printed inside each goroutine of Parallel.Execute. -/
def parallelLogLine (t : Task) : String := "+ [Parallel] - " ++ t.descr

/-- Observable outcome of running Execute or Rollback on a task: the
returned error, the Begin/Finish events published on the Context event
bus in order, the log.Infof announcement lines printed in order, the
list positions of the direct children the composite dispatched (in
dispatch order; empty for a leaf), and the Context after the run. -/
structure ExecOut where
  err : Option Err
  events : List Event
  logs : List String
  dispatched : List Nat
  ctx : Context
deriving DecidableEq, Repr

mutual
/-- Task.Execute. A leaf returns its fixed error after applying its
Context mutations and publishes nothing itself: begin/finish
instrumentation happens at the dispatch point in the composite. A
Parallel node here runs its goroutines under the canonical list-order
completion schedule; parallelRun below exposes the schedule. -/
def Task.Execute : Task → Context → ExecOut
  | .leaf _ _ e _ eo _, ctx => ⟨e, [], [], [], applyOps eo ctx⟩
  | .Serial hide inner, ctx => serialGo hide inner ctx
  | .Parallel hide inner, ctx => parGo hide inner ctx

/-- The loop body of Serial.Execute: for each child, print the
announcement when the child is not a display task and the flag does not
suppress it, publish Begin, run the child, publish Finish with its
error, and stop returning that error when it is non-nil. Dispatched
positions are relative to the current suffix and shifted at each step. -/
def serialGo (hide : Bool) : List Task → Context → ExecOut
  | [], ctx => ⟨none, [], [], [], ctx⟩
  | t :: rest, ctx =>
      let logs := if !isDisplayTask t && !hide then [serialLogLine t] else []
      let r := Task.Execute t ctx
      let evs := Event.taskBegin t.descr :: (r.events ++ [Event.taskFinish t.descr r.err])
      match r.err with
      | some e => ⟨some e, evs, logs ++ r.logs, [0], r.ctx⟩
      | none =>
          let restOut := serialGo hide rest r.ctx
          ⟨restOut.err, evs ++ restOut.events, logs ++ r.logs ++ restOut.logs,
            0 :: restOut.dispatched.map Nat.succ, restOut.ctx⟩

/-- The goroutine bodies of Parallel.Execute under the list-order
completion schedule: every child runs (no short-circuit); the recorded
error is the first non-nil one in schedule order (the mutex-guarded
firstError of the source). -/
def parGo (hide : Bool) : List Task → Context → ExecOut
  | [], ctx => ⟨none, [], [], [], ctx⟩
  | t :: rest, ctx =>
      let logs := if !isDisplayTask t && !hide then [parallelLogLine t] else []
      let r := Task.Execute t ctx
      let evs := Event.taskBegin t.descr :: (r.events ++ [Event.taskFinish t.descr r.err])
      let restOut := parGo hide rest r.ctx
      ⟨(match r.err with | some e => some e | none => restOut.err),
        evs ++ restOut.events, logs ++ r.logs ++ restOut.logs,
        0 :: restOut.dispatched.map Nat.succ, restOut.ctx⟩
end

mutual
/-- Task.Rollback. A leaf returns its fixed rollback error after
applying its rollback Context mutations; composites publish no events
and print no announcements on this path. -/
def Task.Rollback : Task → Context → ExecOut
  | .leaf _ _ _ r _ ro, ctx => ⟨r, [], [], [], applyOps ro ctx⟩
  | .Serial _ inner, ctx => serialRb inner ctx
  | .Parallel _ inner, ctx => parRb inner ctx

/-- The loop of Serial.Rollback: children are rolled back in strict
reverse list order (the tail first, then the head), stopping on the
first non-nil error. -/
def serialRb : List Task → Context → ExecOut
  | [], ctx => ⟨none, [], [], [], ctx⟩
  | t :: rest, ctx =>
      let restOut := serialRb rest ctx
      match restOut.err with
      | some e =>
          ⟨some e, restOut.events, restOut.logs,
            restOut.dispatched.map Nat.succ, restOut.ctx⟩
      | none =>
          let r := Task.Rollback t restOut.ctx
          ⟨r.err, restOut.events ++ r.events, restOut.logs ++ r.logs,
            restOut.dispatched.map Nat.succ ++ [0], r.ctx⟩

/-- The goroutine bodies of Parallel.Rollback under the list-order
completion schedule: every child is rolled back, first non-nil error in
schedule order wins. -/
def parRb : List Task → Context → ExecOut
  | [], ctx => ⟨none, [], [], [], ctx⟩
  | t :: rest, ctx =>
      let r := Task.Rollback t ctx
      let restOut := parRb rest r.ctx
      ⟨(match r.err with | some e => some e | none => restOut.err),
        r.events ++ restOut.events, r.logs ++ restOut.logs,
        0 :: restOut.dispatched.map Nat.succ, restOut.ctx⟩
end

/-- Parallel.Execute with an explicit goroutine completion schedule:
order lists the child positions in the order their goroutines run and
record their results (goroutine completion order is nondeterministic in
the source; a schedule that is a permutation of the child positions
corresponds to one possible run). Positions out of range dispatch no
goroutine. The recorded error is the first non-nil one in schedule
order, exactly the mutex-guarded firstError of the source. -/
def parallelRun (hide : Bool) (inner : List Task) : List Nat → Context → ExecOut
  | [], ctx => ⟨none, [], [], [], ctx⟩
  | i :: rest, ctx =>
      match inner[i]? with
      | none => parallelRun hide inner rest ctx
      | some t =>
          let logs := if !isDisplayTask t && !hide then [parallelLogLine t] else []
          let r := Task.Execute t ctx
          let evs := Event.taskBegin t.descr :: (r.events ++ [Event.taskFinish t.descr r.err])
          let restOut := parallelRun hide inner rest r.ctx
          ⟨(match r.err with | some e => some e | none => restOut.err),
            evs ++ restOut.events, logs ++ r.logs ++ restOut.logs,
            i :: restOut.dispatched, restOut.ctx⟩

mutual
/-- Rewrite every display-suppression flag in the tree to hide and
every leaf's display classification to disp, leaving descriptions,
results and Context mutations untouched. Varying these two inputs
ranges over all assignments of the hideDetailDisplay flags and of the
isDisplayTask classification of non-composite children. -/
def Task.setFlags (disp hide : Bool) : Task → Task
  | .leaf d _ e r eo ro => .leaf d disp e r eo ro
  | .Serial _ inner => .Serial hide (setFlagsList disp hide inner)
  | .Parallel _ inner => .Parallel hide (setFlagsList disp hide inner)

/-- setFlags mapped over a child list. -/
def setFlagsList (disp hide : Bool) : List Task → List Task
  | [] => []
  | t :: ts => Task.setFlags disp hide t :: setFlagsList disp hide ts
end

/-- The components of an outcome other than the printed log lines: the
returned error, the published event sequence, the dispatched child
positions, and the resulting Context. -/
def ExecOut.core (o : ExecOut) : Option Err × List Event × List Nat × Context :=
  (o.err, o.events, o.dispatched, o.ctx)

/-- Concrete host name for witnesses. -/
def hostA : String := "alpha"

/-- Concrete leaf descriptions for witnesses and counterexamples. -/
def dA : String := "a"

/-- Second concrete leaf description. -/
def dB : String := "b"

/-- Third concrete leaf description. -/
def dC : String := "c"

/-- A leaf whose Execute and Rollback both succeed. -/
def leafOkA : Task := .leaf dA false none none [] []

/-- A second always-succeeding leaf. -/
def leafOkB : Task := .leaf dB false none none [] []

/-- A third always-succeeding leaf. -/
def leafOkC : Task := .leaf dC false none none [] []

/-- A leaf whose Execute fails with error 1. -/
def leafFailA : Task := .leaf dA false (some 1) none [] []

/-- A leaf whose Execute fails with error 2. -/
def leafFailB : Task := .leaf dB false (some 2) none [] []

/-- A leaf whose Execute succeeds but whose Rollback fails with error 3. -/
def leafRbFail : Task := .leaf dC false none (some 3) [] []

theorem mapLookup_mapInsert_self (k : String) (v : α) :
    ∀ l : List (String × α), mapLookup k (mapInsert k v l) = some v := by
  intro l
  induction l with
  | nil => simp [mapInsert, mapLookup]
  | cons hd tl ih =>
      obtain ⟨k1, v1⟩ := hd
      by_cases h : k1 = k
      · simp [mapInsert, h, mapLookup]
      · simp [mapInsert, h, mapLookup, ih]

mutual
theorem Execute_err_congr : ∀ (t : Task) (c1 c2 : Context),
    (Task.Execute t c1).err = (Task.Execute t c2).err
  | .leaf .., _, _ => rfl
  | .Serial hide inner, c1, c2 => serialGo_err_congr hide inner c1 c2
  | .Parallel hide inner, c1, c2 => parGo_err_congr hide inner c1 c2

theorem serialGo_err_congr : ∀ (hide : Bool) (inner : List Task) (c1 c2 : Context),
    (serialGo hide inner c1).err = (serialGo hide inner c2).err
  | _, [], _, _ => rfl
  | hide, t :: rest, c1, c2 => by
      have ht := Execute_err_congr t c1 c2
      have hrest :=
        serialGo_err_congr hide rest (Task.Execute t c1).ctx (Task.Execute t c2).ctx
      simp only [serialGo]
      rw [← ht]
      cases h1 : (Task.Execute t c1).err <;> simp [hrest]

theorem parGo_err_congr : ∀ (hide : Bool) (inner : List Task) (c1 c2 : Context),
    (parGo hide inner c1).err = (parGo hide inner c2).err
  | _, [], _, _ => rfl
  | hide, t :: rest, c1, c2 => by
      have ht := Execute_err_congr t c1 c2
      have hrest :=
        parGo_err_congr hide rest (Task.Execute t c1).ctx (Task.Execute t c2).ctx
      simp only [parGo]
      rw [← ht]
      cases h1 : (Task.Execute t c1).err <;> simp [hrest]
end

theorem serialGo_all_ok (hide : Bool) :
    ∀ (inner : List Task) (ctx : Context),
      (∀ t ∈ inner, ∀ c, (Task.Execute t c).err = none) →
      (serialGo hide inner ctx).err = none ∧
      (serialGo hide inner ctx).dispatched = List.range inner.length := by
  intro inner
  induction inner with
  | nil => intro ctx _; exact ⟨rfl, rfl⟩
  | cons t rest ih =>
      intro ctx h
      have ht : (Task.Execute t ctx).err = none := h t (by simp) ctx
      have ihr := ih (Task.Execute t ctx).ctx (fun u hu c => h u (by simp [hu]) c)
      simp only [serialGo, ht]
      refine ⟨by simpa using ihr.1, ?_⟩
      simp [ihr.2, List.range_succ_eq_map, List.length_cons]

theorem serialGo_first_failure (hide : Bool) :
    ∀ (inner : List Task) (ctx : Context) (k : Nat) (hk : k < inner.length) (e : Err),
      (∀ t ∈ inner.take k, ∀ c, (Task.Execute t c).err = none) →
      (∀ c, (Task.Execute (inner.get ⟨k, hk⟩) c).err = some e) →
      (serialGo hide inner ctx).err = some e ∧
      (serialGo hide inner ctx).dispatched = List.range (k + 1) := by
  intro inner
  induction inner with
  | nil => intro ctx k hk; exact absurd hk (by simp)
  | cons t rest ih =>
      intro ctx k hk e hpre hfail
      cases k with
      | zero =>
          have ht : (Task.Execute t ctx).err = some e := hfail ctx
          simp [serialGo, ht, List.range_succ]
      | succ k1 =>
          have ht : (Task.Execute t ctx).err = none :=
            hpre t (by simp [List.take_cons]) ctx
          have hk1 : k1 < rest.length := Nat.lt_of_succ_lt_succ hk
          have ihr := ih (Task.Execute t ctx).ctx k1 hk1 e
            (fun u hu c => hpre u (by simp [List.take_cons, hu]) c)
            (fun c => hfail c)
          simp only [serialGo, ht]
          refine ⟨by simpa using ihr.1, ?_⟩
          simp [ihr.2, List.range_succ_eq_map]

theorem range_reverse_take_map_succ (m j : Nat) (hj : j ≤ m) :
    (((List.range m).reverse).take j).map Nat.succ =
      ((List.range (m + 1)).reverse).take j := by
  rw [List.range_succ_eq_map, List.reverse_cons]
  rw [List.take_append_of_le_length (by simp [hj])]
  rw [← List.map_reverse, List.map_take]

theorem serialRb_all_ok :
    ∀ (inner : List Task) (ctx : Context),
      (∀ t ∈ inner, ∀ c, (Task.Rollback t c).err = none) →
      (serialRb inner ctx).err = none ∧
      (serialRb inner ctx).dispatched = (List.range inner.length).reverse := by
  intro inner
  induction inner with
  | nil => intro ctx _; exact ⟨rfl, rfl⟩
  | cons t rest ih =>
      intro ctx h
      have ihr := ih ctx (fun u hu c => h u (by simp [hu]) c)
      have ht := h t (by simp) (serialRb rest ctx).ctx
      simp only [serialRb, ihr.1]
      refine ⟨by simpa using ht, ?_⟩
      simp [ihr.2, List.range_succ_eq_map, List.reverse_cons, ← List.map_reverse]

theorem serialRb_first_failure :
    ∀ (inner : List Task) (ctx : Context) (p : Nat) (hp : p < inner.length) (e : Err),
      (∀ t ∈ inner.drop (p + 1), ∀ c, (Task.Rollback t c).err = none) →
      (∀ c, (Task.Rollback (inner.get ⟨p, hp⟩) c).err = some e) →
      (serialRb inner ctx).err = some e ∧
      (serialRb inner ctx).dispatched =
        ((List.range inner.length).reverse).take (inner.length - p) := by
  intro inner
  induction inner with
  | nil => intro ctx p hp; exact absurd hp (by simp)
  | cons t rest ih =>
      intro ctx p hp e hpost hfail
      cases p with
      | zero =>
          have hrest := serialRb_all_ok rest ctx
            (fun u hu c => hpost u (by simpa using hu) c)
          have ht : (Task.Rollback t (serialRb rest ctx).ctx).err = some e := hfail _
          simp only [serialRb, hrest.1]
          refine ⟨by simpa using ht, ?_⟩
          have hlen : ((List.range (rest.length + 1)).reverse).take (rest.length + 1) =
              (List.range (rest.length + 1)).reverse :=
            List.take_of_length_le (by simp)
          simp only [List.length_cons, Nat.sub_zero, hlen]
          simp [hrest.2, List.range_succ_eq_map, List.reverse_cons, ← List.map_reverse]
      | succ p1 =>
          have hp1 : p1 < rest.length := Nat.lt_of_succ_lt_succ hp
          have ihr := ih ctx p1 hp1 e
            (fun u hu c => hpost u (by simpa using hu) c) (fun c => hfail c)
          simp only [serialRb, ihr.1]
          refine ⟨by simp, ?_⟩
          have hsub : rest.length + 1 - (p1 + 1) = rest.length - p1 := by omega
          simp only [List.length_cons, hsub]
          simp [ihr.2,
            range_reverse_take_map_succ rest.length (rest.length - p1) (Nat.sub_le _ _)]

theorem parallelRun_nil_inner (hide : Bool) :
    ∀ (order : List Nat) (ctx : Context),
      parallelRun hide [] order ctx = ⟨none, [], [], [], ctx⟩
  | [], _ => rfl
  | i :: rest, ctx => by
      simp only [parallelRun, List.getElem?_nil]
      exact parallelRun_nil_inner hide rest ctx

theorem parallelRun_spec (hide : Bool) (inner : List Task) :
    ∀ (order : List Nat) (ctx : Context),
      (∀ i ∈ order, i < inner.length) →
      (parallelRun hide inner order ctx).dispatched = order ∧
      ((parallelRun hide inner order ctx).err = none ↔
        ∀ i ∈ order, ∀ t, inner[i]? = some t →
          ∀ c, (Task.Execute t c).err = none) := by
  intro order
  induction order with
  | nil => intro ctx _; simp [parallelRun]
  | cons i rest ih =>
      intro ctx hv
      have hi : i < inner.length := hv i (by simp)
      have hsome : inner[i]? = some (inner.get ⟨i, hi⟩) := by
        simp [List.getElem?_eq_getElem hi]
      have ihr := ih (Task.Execute (inner.get ⟨i, hi⟩) ctx).ctx
        (fun j hj => hv j (by simp [hj]))
      simp only [parallelRun, hsome]
      cases h1 : (Task.Execute (inner.get ⟨i, hi⟩) ctx).err with
      | some e =>
          refine ⟨by simpa using ihr.1, ?_⟩
          simp only [and_false, false_and]
          constructor
          · intro habs; exact absurd habs (by simp)
          · intro hall
            have := hall i (by simp) (inner.get ⟨i, hi⟩) hsome ctx
            rw [h1] at this
            exact Option.noConfusion this
      | none =>
          refine ⟨by simpa using ihr.1, ?_⟩
          have hiff := ihr.2
          constructor
          · intro hr j hj u hu c
            rcases List.mem_cons.mp hj with rfl | hj2
            · have hu2 : u = inner.get ⟨j, hi⟩ := by
                rw [hu] at hsome
                exact Option.some.inj hsome
              subst hu2
              rw [Execute_err_congr (inner.get ⟨j, hi⟩) c ctx]
              exact h1
            · exact hiff.mp (by simpa using hr) j hj2 u hu c
          · intro hall
            simpa using hiff.mpr (fun j hj u hu c => hall j (by simp [hj]) u hu c)

theorem parallelRun_first_error (hide : Bool) (inner : List Task) :
    ∀ (pre post : List Nat) (i : Nat) (ti : Task) (e : Err) (ctx : Context),
      (∀ j ∈ pre, ∀ t, inner[j]? = some t → ∀ c, (Task.Execute t c).err = none) →
      inner[i]? = some ti →
      (∀ c, (Task.Execute ti c).err = some e) →
      (parallelRun hide inner (pre ++ i :: post) ctx).err = some e := by
  intro pre
  induction pre with
  | nil =>
      intro post i ti e ctx _ hti hfail
      simp only [List.nil_append, parallelRun, hti]
      simp [hfail ctx]
  | cons j pre1 ih =>
      intro post i ti e ctx hpre hti hfail
      cases hj : inner[j]? with
      | none =>
          simp only [List.cons_append, parallelRun, hj]
          exact ih post i ti e ctx
            (fun j2 hj2 t ht c => hpre j2 (by simp [hj2]) t ht c) hti hfail
      | some t =>
          have htnone : (Task.Execute t ctx).err = none := hpre j (by simp) t hj ctx
          simp only [List.cons_append, parallelRun, hj, htnone]
          simpa using ih post i ti e (Task.Execute t ctx).ctx
            (fun j2 hj2 u hu c => hpre j2 (by simp [hj2]) u hu c) hti hfail

mutual
theorem Rollback_silent : ∀ (t : Task) (ctx : Context),
    (Task.Rollback t ctx).events = [] ∧ (Task.Rollback t ctx).logs = []
  | .leaf .., _ => ⟨rfl, rfl⟩
  | .Serial _ inner, ctx => serialRb_silent inner ctx
  | .Parallel _ inner, ctx => parRb_silent inner ctx

theorem serialRb_silent : ∀ (inner : List Task) (ctx : Context),
    (serialRb inner ctx).events = [] ∧ (serialRb inner ctx).logs = []
  | [], _ => ⟨rfl, rfl⟩
  | t :: rest, ctx => by
      have hrest := serialRb_silent rest ctx
      have ht := Rollback_silent t (serialRb rest ctx).ctx
      simp only [serialRb]
      cases h1 : (serialRb rest ctx).err <;>
        simp [hrest.1, hrest.2, ht.1, ht.2]

theorem parRb_silent : ∀ (inner : List Task) (ctx : Context),
    (parRb inner ctx).events = [] ∧ (parRb inner ctx).logs = []
  | [], _ => ⟨rfl, rfl⟩
  | t :: rest, ctx => by
      have ht := Rollback_silent t ctx
      have hrest := parRb_silent rest (Task.Rollback t ctx).ctx
      simp only [parRb]
      exact ⟨by simp [ht.1, hrest.1], by simp [ht.2, hrest.2]⟩
end

mutual
theorem descr_setFlags (d h : Bool) : ∀ t : Task, (Task.setFlags d h t).descr = t.descr
  | .leaf .. => rfl
  | .Serial _ inner => by
      simp only [Task.setFlags, Task.descr, descrList_setFlags d h inner]
  | .Parallel _ inner => by
      simp only [Task.setFlags, Task.descr, descrList_setFlags d h inner]

theorem descrList_setFlags (d h : Bool) :
    ∀ l : List Task, descrList (setFlagsList d h l) = descrList l
  | [] => rfl
  | t :: ts => by
      simp only [setFlagsList, descrList, descr_setFlags d h t,
        descrList_setFlags d h ts]
end

mutual
theorem Execute_setFlags_core (d h : Bool) : ∀ (t : Task) (ctx : Context),
    (Task.Execute (Task.setFlags d h t) ctx).core = (Task.Execute t ctx).core
  | .leaf .., _ => rfl
  | .Serial hide inner, ctx => by
      simpa only [Task.setFlags, Task.Execute] using
        serialGo_setFlags_core d h inner hide ctx
  | .Parallel hide inner, ctx => by
      simpa only [Task.setFlags, Task.Execute] using
        parGo_setFlags_core d h inner hide ctx

theorem serialGo_setFlags_core (d h : Bool) :
    ∀ (inner : List Task) (hide : Bool) (ctx : Context),
      (serialGo h (setFlagsList d h inner) ctx).core = (serialGo hide inner ctx).core
  | [], _, _ => rfl
  | t :: rest, hide, ctx => by
      have hcore := Execute_setFlags_core d h t ctx
      have hdesc := descr_setFlags d h t
      simp only [ExecOut.core, Prod.mk.injEq] at hcore
      obtain ⟨h1, h2, h3, h4⟩ := hcore
      have hrest := serialGo_setFlags_core d h rest hide (Task.Execute t ctx).ctx
      simp only [ExecOut.core, Prod.mk.injEq] at hrest
      obtain ⟨r1, r2, r3, r4⟩ := hrest
      simp only [setFlagsList, serialGo, hdesc, h1, h2, h4]
      cases he : (Task.Execute t ctx).err <;>
        simp [ExecOut.core, he, h3, r1, r2, r3, r4]

theorem parGo_setFlags_core (d h : Bool) :
    ∀ (inner : List Task) (hide : Bool) (ctx : Context),
      (parGo h (setFlagsList d h inner) ctx).core = (parGo hide inner ctx).core
  | [], _, _ => rfl
  | t :: rest, hide, ctx => by
      have hcore := Execute_setFlags_core d h t ctx
      have hdesc := descr_setFlags d h t
      simp only [ExecOut.core, Prod.mk.injEq] at hcore
      obtain ⟨h1, h2, h3, h4⟩ := hcore
      have hrest := parGo_setFlags_core d h rest hide (Task.Execute t ctx).ctx
      simp only [ExecOut.core, Prod.mk.injEq] at hrest
      obtain ⟨r1, r2, r3, r4⟩ := hrest
      simp only [setFlagsList, parGo, hdesc, h1, h2, h4]
      cases he : (Task.Execute t ctx).err <;>
        simp [ExecOut.core, he, h3, r1, r2, r3, r4]
end

/-- C1: for every Serial composite and every context, if the child at
list position k is the first whose Execute returns a non-nil error (all
earlier children succeed), Serial.Execute dispatches exactly the
children at positions 0..k, once each in list order, never dispatches a
later child, and returns exactly child k's error; and if every child
succeeds it dispatches all children once each in list order and returns
nil. -/
theorem serial_execute_first_failure (hide : Bool) (inner : List Task) (ctx : Context) :
    (∀ (k : Nat) (hk : k < inner.length) (e : Err),
      (∀ t ∈ inner.take k, ∀ c, (Task.Execute t c).err = none) →
      (∀ c, (Task.Execute (inner.get ⟨k, hk⟩) c).err = some e) →
      (Task.Execute (Task.Serial hide inner) ctx).err = some e ∧
      (Task.Execute (Task.Serial hide inner) ctx).dispatched = List.range (k + 1)) ∧
    ((∀ t ∈ inner, ∀ c, (Task.Execute t c).err = none) →
      (Task.Execute (Task.Serial hide inner) ctx).err = none ∧
      (Task.Execute (Task.Serial hide inner) ctx).dispatched =
        List.range inner.length) := by
  constructor
  · intro k hk e hpre hfail
    simpa only [Task.Execute] using
      serialGo_first_failure hide inner ctx k hk e hpre hfail
  · intro hall
    simpa only [Task.Execute] using serialGo_all_ok hide inner ctx hall

/-- Witness for C1: in Serial [leafOkA, leafFailB] the second child is
the first failure, so exactly children 0 and 1 are dispatched and its
error 2 is returned. -/
theorem serial_execute_first_failure_witness :
    (Task.Execute (Task.Serial false [leafOkA, leafFailB]) NewContext).err = some 2 ∧
    (Task.Execute (Task.Serial false [leafOkA, leafFailB]) NewContext).dispatched =
      List.range 2 :=
  (serial_execute_first_failure false [leafOkA, leafFailB] NewContext).1 1 (by decide) 2
    (by
      intro t ht c
      have h1 : t = leafOkA := by simpa using ht
      subst h1
      rfl)
    (fun _ => rfl)

/-- C2 counterexample: Serial [leafFailA, leafOkB] fails at its first
child, so its forward Execute completes zero children (it dispatches
only position 0, which fails); the claim then demands that Rollback
touch no child, yet Rollback dispatches positions 1 and 0 — including
child 1, which never executed. -/
theorem serial_rollback_ignores_execution_cex :
    (Task.Execute (Task.Serial false [leafFailA, leafOkB]) NewContext).err = some 1 ∧
    (Task.Execute (Task.Serial false [leafFailA, leafOkB]) NewContext).dispatched = [0] ∧
    (Task.Rollback (Task.Serial false [leafFailA, leafOkB]) NewContext).dispatched =
      [1, 0] ∧
    (Task.Rollback (Task.Serial false [leafFailA, leafOkB]) NewContext).dispatched ≠
      [] :=
  ⟨rfl, rfl, rfl, by decide⟩

/-- C2 amended: Serial.Rollback is independent of how far the forward
Execute got: it always iterates the full child list in strict reverse
order, rolling back child N-1 down to the first child whose Rollback
returns a non-nil error, returning that error (so it dispatches the
reverse-order prefix down to and including position p when child p is
the first rollback failure from the top); if no child's Rollback fails
it rolls back every child exactly once, in strict reverse order, and
returns nil. -/
theorem serial_rollback_reverse_all (hide : Bool) (inner : List Task) (ctx : Context) :
    (∀ (p : Nat) (hp : p < inner.length) (e : Err),
      (∀ t ∈ inner.drop (p + 1), ∀ c, (Task.Rollback t c).err = none) →
      (∀ c, (Task.Rollback (inner.get ⟨p, hp⟩) c).err = some e) →
      (Task.Rollback (Task.Serial hide inner) ctx).err = some e ∧
      (Task.Rollback (Task.Serial hide inner) ctx).dispatched =
        ((List.range inner.length).reverse).take (inner.length - p)) ∧
    ((∀ t ∈ inner, ∀ c, (Task.Rollback t c).err = none) →
      (Task.Rollback (Task.Serial hide inner) ctx).err = none ∧
      (Task.Rollback (Task.Serial hide inner) ctx).dispatched =
        (List.range inner.length).reverse) := by
  constructor
  · intro p hp e hpost hfail
    simpa only [Task.Rollback] using
      serialRb_first_failure inner ctx p hp e hpost hfail
  · intro hall
    simpa only [Task.Rollback] using serialRb_all_ok inner ctx hall

/-- Witness for the amended C2: rolling back Serial
[leafOkA, leafRbFail, leafOkB] visits position 2, then stops at
position 1 whose Rollback fails with error 3. -/
theorem serial_rollback_reverse_all_witness :
    (Task.Rollback (Task.Serial false [leafOkA, leafRbFail, leafOkB])
        NewContext).err = some 3 ∧
    (Task.Rollback (Task.Serial false [leafOkA, leafRbFail, leafOkB])
        NewContext).dispatched = ((List.range 3).reverse).take (3 - 1) :=
  (serial_rollback_reverse_all false [leafOkA, leafRbFail, leafOkB] NewContext).1 1
    (by decide) 3
    (by
      intro t ht c
      have h1 : t = leafOkB := by simpa using ht
      subst h1
      rfl)
    (fun _ => rfl)

/-- C3 counterexample: children at positions 0 and 1 both fail (with
errors 1 and 2 respectively); under the goroutine completion schedule
[1, 0] — a permutation of the positions, hence a possible run —
Parallel.Execute records child 1's error first and returns error 2,
not the error of the lowest failing list index. -/
theorem parallel_error_not_list_order_cex :
    ([1, 0] : List Nat).Perm (List.range 2) ∧
    (Task.Execute leafFailA NewContext).err = some 1 ∧
    (Task.Execute leafFailB NewContext).err = some 2 ∧
    (parallelRun false [leafFailA, leafFailB] [1, 0] NewContext).err = some 2 ∧
    (some 2 : Option Err) ≠ some 1 :=
  ⟨by decide, rfl, rfl, rfl, by decide⟩

/-- C3 amended: when several children of a Parallel composite fail, the
returned error is that of the first failing child in the goroutine
completion (recording) order, which is nondeterministic: for any
schedule in which every child recorded earlier succeeds, the error of
the child recorded at that point is returned, whatever its list
position — the lowest failing list index wins only under schedules
(such as list order) that record it first. -/
theorem parallel_first_recorded_error (hide : Bool) (inner : List Task)
    (pre post : List Nat) (i : Nat) (ti : Task) (e : Err) (ctx : Context)
    (hpre : ∀ j ∈ pre, ∀ t, inner[j]? = some t → ∀ c, (Task.Execute t c).err = none)
    (hti : inner[i]? = some ti)
    (hfail : ∀ c, (Task.Execute ti c).err = some e) :
    (parallelRun hide inner (pre ++ i :: post) ctx).err = some e :=
  parallelRun_first_error hide inner pre post i ti e ctx hpre hti hfail

/-- Witness for the amended C3: with both children failing and child 1
recorded first, error 2 is returned. -/
theorem parallel_first_recorded_error_witness :
    (parallelRun false [leafFailA, leafFailB] ([] ++ 1 :: [0]) NewContext).err =
      some 2 :=
  parallel_first_recorded_error false [leafFailA, leafFailB] [] [0] 1 leafFailB 2
    NewContext (by intro j hj; exact absurd hj (List.not_mem_nil j)) rfl
    (fun _ => rfl)

/-- C4: for every Parallel composite and every goroutine completion
schedule covering each child position exactly once, Parallel.Execute
dispatches every child exactly once — a child's failure never prevents
a sibling from executing, and the result is produced only after the
entire schedule has completed — and returns nil if and only if every
child's Execute returned nil. -/
theorem parallel_execute_all_children (hide : Bool) (inner : List Task)
    (order : List Nat) (ctx : Context)
    (hperm : order.Perm (List.range inner.length)) :
    (parallelRun hide inner order ctx).dispatched = order ∧
    (parallelRun hide inner order ctx).dispatched.Perm (List.range inner.length) ∧
    ((parallelRun hide inner order ctx).err = none ↔
      ∀ t ∈ inner, ∀ c, (Task.Execute t c).err = none) := by
  have hvalid : ∀ i ∈ order, i < inner.length := by
    intro i hi
    have h2 := hperm.mem_iff.mp hi
    simpa using h2
  obtain ⟨hd, hiff⟩ := parallelRun_spec hide inner order ctx hvalid
  refine ⟨hd, by rw [hd]; exact hperm, ?_⟩
  rw [hiff]
  constructor
  · intro hall t ht c
    obtain ⟨i, hlt, heq⟩ := List.mem_iff_getElem.mp ht
    have hio : i ∈ order := hperm.mem_iff.mpr (by simpa using hlt)
    refine hall i hio t ?_ c
    rw [List.getElem?_eq_getElem hlt, heq]
  · intro hall i hio t hsome c
    obtain ⟨hlt, heq⟩ := List.getElem?_eq_some_iff.mp hsome
    exact hall t (heq ▸ List.getElem_mem hlt) c

/-- Witness for C4 at a concrete Parallel composite and the reversed
schedule. -/
theorem parallel_execute_all_children_witness :
    (parallelRun false [leafOkA, leafFailB] [1, 0] NewContext).dispatched = [1, 0] ∧
    (parallelRun false [leafOkA, leafFailB] [1, 0] NewContext).dispatched.Perm
      (List.range 2) ∧
    ((parallelRun false [leafOkA, leafFailB] [1, 0] NewContext).err = none ↔
      ∀ t ∈ [leafOkA, leafFailB], ∀ c, (Task.Execute t c).err = none) :=
  parallel_execute_all_children false [leafOkA, leafFailB] [1, 0] NewContext
    (by decide)

/-- C5: registering an executor and reading it back succeeds via the
soft lookup (the executor and found=true) and via the hard lookup
(the executor, no panic); on a host with no registered executor the
soft GetExecutor returns the zero-value handle and found=false without
failing, while the hard Get takes the fatal programming-error path
(the panic, modelled as none). -/
theorem context_executor_registry_spec (ctx : Context) (host : String)
    (e : TiOpsExecutor) (hmiss : mapLookup host ctx.executors = none) :
    (ctx.SetExecutor host e).GetExecutor host = (e, true) ∧
    (ctx.SetExecutor host e).Get host = some e ∧
    ctx.GetExecutor host = (0, false) ∧
    ctx.Get host = none := by
  refine ⟨?_, ?_, ?_, ?_⟩
  · simp [Context.GetExecutor, Context.SetExecutor, mapLookup_mapInsert_self]
  · simp [Context.Get, Context.SetExecutor, mapLookup_mapInsert_self]
  · simp [Context.GetExecutor, hmiss]
  · simp [Context.Get, hmiss]

/-- Witness for C5 on the fresh Context and a concrete host. -/
theorem context_executor_registry_spec_witness :
    (NewContext.SetExecutor hostA 7).GetExecutor hostA = (7, true) ∧
    (NewContext.SetExecutor hostA 7).Get hostA = some 7 ∧
    NewContext.GetExecutor hostA = (0, false) ∧
    NewContext.Get hostA = none :=
  context_executor_registry_spec NewContext hostA 7 rfl

/-- C6: the output cache round-trips at the public interface: after
SetOutputs(h, o, e), GetOutputs(h) returns (o, e, true), and a second
SetOutputs for the same host overwrites rather than accumulates; the
internal cross-assignment of the stdout and stderr stores in SetOutputs
and GetOutputs cancels out. -/
theorem context_outputs_roundtrip (ctx : Context) (host : String)
    (o e o2 e2 : Bytes) :
    (ctx.SetOutputs host o e).GetOutputs host = (o, e, true) ∧
    ((ctx.SetOutputs host o e).SetOutputs host o2 e2).GetOutputs host =
      (o2, e2, true) := by
  constructor <;>
    simp [Context.GetOutputs, Context.SetOutputs, mapLookup_mapInsert_self]

/-- C7 counterexample: a Serial composite of 3 leaf tasks whose first
child fails publishes exactly one Begin and one Finish event (for the
failing child only) and stops — not the claimed 3 Begin and 3 Finish
events. -/
theorem serial_three_leaf_events_cex :
    (Task.Execute (Task.Serial false [leafFailA, leafOkB, leafOkC])
        NewContext).events =
      [Event.taskBegin dA, Event.taskFinish dA (some 1)] ∧
    (Task.Execute (Task.Serial false [leafFailA, leafOkB, leafOkC])
        NewContext).events.length ≠ 6 :=
  ⟨rfl, by decide⟩

/-- C7 amended: executing a Serial composite of 3 leaf tasks whose
first two children succeed publishes exactly 3 Begin and 3 Finish
events, interleaved per child in list order, each Finish carrying that
child's actual Execute result (its error, or nil); when an earlier
child fails, the sequence stops at that child's Finish event. -/
theorem serial_three_leaf_events (hide : Bool) (ctx : Context)
    (d1 d2 d3 : String) (b1 b2 b3 : Bool) (e3 r1 r2 r3 : Option Err)
    (o1 o2 o3 p1 p2 p3 : List CtxOp) :
    (Task.Execute (Task.Serial hide
        [Task.leaf d1 b1 none r1 o1 p1, Task.leaf d2 b2 none r2 o2 p2,
          Task.leaf d3 b3 e3 r3 o3 p3]) ctx).events =
      [Event.taskBegin d1, Event.taskFinish d1 none,
        Event.taskBegin d2, Event.taskFinish d2 none,
        Event.taskBegin d3, Event.taskFinish d3 e3] := by
  cases e3 <;> rfl

/-- C8: the error, the published event sequence, the dispatched
children and the resulting Context of Execute are unchanged under every
reassignment of the display-suppression flags and of the leaf display
classification across the whole tree (setFlags); the classification and
flag govern only the printed log lines, which are the one component
excluded from ExecOut.core. -/
theorem display_flags_affect_only_logs (t : Task) (ctx : Context) (d h : Bool) :
    (Task.Execute (Task.setFlags d h t) ctx).core = (Task.Execute t ctx).core :=
  Execute_setFlags_core d h t ctx

/-- C9: Execute and Rollback on a Serial or Parallel composite with no
children return nil, publish no events, print no announcement lines,
dispatch no child and leave the Context unchanged — for Parallel under
every goroutine schedule as well. -/
theorem empty_composite_noop (hide : Bool) (ctx : Context) :
    Task.Execute (Task.Serial hide []) ctx = ⟨none, [], [], [], ctx⟩ ∧
    Task.Execute (Task.Parallel hide []) ctx = ⟨none, [], [], [], ctx⟩ ∧
    Task.Rollback (Task.Serial hide []) ctx = ⟨none, [], [], [], ctx⟩ ∧
    Task.Rollback (Task.Parallel hide []) ctx = ⟨none, [], [], [], ctx⟩ ∧
    ∀ order : List Nat, parallelRun hide [] order ctx = ⟨none, [], [], [], ctx⟩ :=
  ⟨rfl, rfl, rfl, rfl, fun order => parallelRun_nil_inner hide order ctx⟩

/-- C10: Rollback of any task tree — in particular of every Serial or
Parallel composite, whatever its display-suppression flag — publishes
no Begin or Finish events and prints no announcement lines: the
begin/finish instrumentation and the announcements exist only on the
forward Execute path. -/
theorem rollback_publishes_nothing (t : Task) (ctx : Context) :
    (Task.Rollback t ctx).events = [] ∧ (Task.Rollback t ctx).logs = [] :=
  Rollback_silent t ctx

end TiupTask
